import Mathlib

/-!
Shallow embedding of the git-stats fetch-and-aggregate engine (src/main.rs)
and verification of its specification claims.

Modelling conventions:
- Rust u64 counters become Nat (no claim depends on wrapping behaviour).
- DateTime/NaiveDate: the source only ever uses the merge timestamp through
  date_naive() comparisons against the optional cutoff date, so a pull
  request carries its naive merge date directly, modelled as Int.
- HashMap String UserStats becomes an association list with entry-or-insert
  update; its iteration order is one legal refinement of HashMap order.
- Network calls: each remote interaction is an oracle value of type
  FetchOutcome describing what the network produced (transport failure,
  undecodable body, or a decoded response); the loops consume a list of
  such outcomes in fetch order.
- Fallible Rust code returning anyhow::Result becomes Except FetchError;
  a Rust integer-division panic is a distinct RunOutcome constructor.
-/

namespace GitStats

/-- Page metadata of one GraphQL page (struct PageInfo). -/
structure PageInfo where
  endCursor : String
  hasNextPage : Bool
deriving Repr, DecidableEq

/-- A GitHub user (struct User); only the login is carried. -/
structure User where
  login : String
deriving Repr, DecidableEq

/-- impl Default for User: a missing author is the sentinel login. -/
instance : Inhabited User := ⟨⟨"Unknown"⟩⟩

/-- deserialize helper default_on_null: a JSON null is replaced by the
type's default value. -/
def default_on_null {T : Type} [Inhabited T] (x : Option T) : T :=
  x.getD default

/-- One review on a pull request (struct Review). -/
structure Review where
  author : User
  state : String
deriving Repr, DecidableEq

/-- One comment on a pull request (struct Comment). -/
structure Comment where
  author : User
deriving Repr, DecidableEq

/-- One merged pull request (struct PullRequest). merged_at_date is the
naive date of the merge timestamp: the source only uses
merged_at.date_naive(). -/
structure PullRequest where
  reviews : List Review
  comments : List Comment
  merged_at_date : Int
  additions : Nat
  deletions : Nat
  changed_files : Nat
  author : User
deriving Repr, DecidableEq

/-- struct PullRequests: a page worth of pull requests plus page metadata. -/
structure PullRequests where
  nodes : List PullRequest
  page_info : PageInfo
deriving Repr, DecidableEq

/-- struct Repository. -/
structure Repository where
  pull_requests : PullRequests
deriving Repr, DecidableEq

/-- struct Data. -/
structure Data where
  repository : Repository
deriving Repr, DecidableEq

/-- struct RepositoryResponse: one decoded per-repository GraphQL response. -/
structure RepositoryResponse where
  data : Data
deriving Repr, DecidableEq

/-- RepositoryResponse::empty(): no nodes, empty cursor, no next page. -/
def RepositoryResponse.empty : RepositoryResponse :=
  ⟨⟨⟨⟨[], ⟨"", false⟩⟩⟩⟩⟩

/-- Convenience projection: the pull-request node list of a response. -/
def RepositoryResponse.nodes (self : RepositoryResponse) : List PullRequest :=
  self.data.repository.pull_requests.nodes

/-- Convenience projection: the page metadata of a response. -/
def RepositoryResponse.page_info (self : RepositoryResponse) : PageInfo :=
  self.data.repository.pull_requests.page_info

/-- RepositoryResponse::has_next_page(max_date): continue paging while the
accumulated response's page info says there is a next page and, when a
cutoff date is given, the last node (if any) was merged strictly after it. -/
def RepositoryResponse.has_next_page (self : RepositoryResponse)
    (max_date : Option Int) : Bool :=
  let in_window :=
    match max_date with
    | some md =>
      match self.nodes.getLast? with
      | some last => decide (md < last.merged_at_date)
      | none => true
    | none => true
  in_window && self.page_info.hasNextPage

/-- RepositoryResponse::next_cursor(). -/
def RepositoryResponse.next_cursor (self : RepositoryResponse) : String :=
  self.page_info.endCursor

/-- RepositoryResponse::extend: append the other response's nodes and adopt
its page info. -/
def RepositoryResponse.extend (self other : RepositoryResponse) :
    RepositoryResponse :=
  ⟨⟨⟨⟨self.nodes ++ other.nodes, other.page_info⟩⟩⟩⟩

/-- RepositoryResponse::trim(max_date): when a cutoff date is given, retain
only the nodes merged strictly after it; otherwise leave the response
unchanged. -/
def RepositoryResponse.trim (self : RepositoryResponse)
    (max_date : Option Int) : RepositoryResponse :=
  match max_date with
  | some md =>
    ⟨⟨⟨⟨self.nodes.filter (fun pr => decide (md < pr.merged_at_date)),
        self.page_info⟩⟩⟩⟩
  | none => self

/-- struct RepositoryNode of the organization listing. -/
structure RepositoryNode where
  name : String
deriving Repr, DecidableEq

/-- struct RepositoryEdge. -/
structure RepositoryEdge where
  node : RepositoryNode
deriving Repr, DecidableEq

/-- struct Repositories. -/
structure Repositories where
  edges : List RepositoryEdge
  page_info : PageInfo
deriving Repr, DecidableEq

/-- struct Organization. -/
structure Organization where
  repositories : Repositories
deriving Repr, DecidableEq

/-- struct OrgData. -/
structure OrgData where
  organization : Organization
deriving Repr, DecidableEq

/-- struct OrganizationResponse: one decoded organization-listing response. -/
structure OrganizationResponse where
  data : OrgData
deriving Repr, DecidableEq

/-- OrganizationResponse::has_next_page(). -/
def OrganizationResponse.has_next_page (self : OrganizationResponse) : Bool :=
  self.data.organization.repositories.page_info.hasNextPage

/-- OrganizationResponse::next_cursor(). -/
def OrganizationResponse.next_cursor (self : OrganizationResponse) : String :=
  self.data.organization.repositories.page_info.endCursor

/-- OrganizationResponse::repositories(): the listed repository names. -/
def OrganizationResponse.repositories (self : OrganizationResponse) :
    List String :=
  self.data.organization.repositories.edges.map (fun e => e.node.name)

/-- OrganizationResponse::extend: append the other response's edges and
adopt its page info. -/
def OrganizationResponse.extend (self other : OrganizationResponse) :
    OrganizationResponse :=
  ⟨⟨⟨⟨self.data.organization.repositories.edges ++
      other.data.organization.repositories.edges,
      other.data.organization.repositories.page_info⟩⟩⟩⟩

/-- The two error classes a remote interaction can surface
(anyhow errors from reqwest and from serde_json respectively). -/
inductive FetchError where
  | transport : FetchError
  | decode : FetchError
deriving Repr, DecidableEq

/-- What the network produced for one page request: a transport failure
(make_request returned Err), a body that fails deserialization, or a
decoded response. -/
inductive FetchOutcome (T : Type) where
  | transportErr : FetchOutcome T
  | badBody : FetchOutcome T
  | good : T → FetchOutcome T
deriving Repr, DecidableEq

/-- get_stats: a transport failure propagates as an error; a body that
fails to decode is logged and replaced by RepositoryResponse::empty(); a
decoded body is returned as-is. -/
def get_stats (o : FetchOutcome RepositoryResponse) :
    Except FetchError RepositoryResponse :=
  match o with
  | .transportErr => .error .transport
  | .badBody => .ok RepositoryResponse.empty
  | .good r => .ok r

/-- get_repositories: both a transport failure and a decode failure
propagate as errors (there is no empty-page fallback here). -/
def get_repositories (o : FetchOutcome OrganizationResponse) :
    Except FetchError OrganizationResponse :=
  match o with
  | .transportErr => .error .transport
  | .badBody => .error .decode
  | .good r => .ok r

/-- The while-let pagination loop of the organization enumeration in main:
while the accumulated response reports a next page, fetch the next page
(propagating its error with ?) and extend the accumulator. The supply list
is the sequence of remote outcomes in fetch order. -/
def repoEnumLoop : OrganizationResponse →
    List (FetchOutcome OrganizationResponse) →
    Except FetchError OrganizationResponse
  | acc, [] => .ok acc
  | acc, o :: rest =>
    if acc.has_next_page then
      match get_repositories o with
      | .error e => .error e
      | .ok p => repoEnumLoop (acc.extend p) rest
    else .ok acc

/-- Repository enumeration in main: fetch the first page (propagating its
error with ?), run the pagination loop, and return the repository names. -/
def enumerate_repositories (first : FetchOutcome OrganizationResponse)
    (rest : List (FetchOutcome OrganizationResponse)) :
    Except FetchError (List String) :=
  match get_repositories first with
  | .error e => .error e
  | .ok r0 =>
    match repoEnumLoop r0 rest with
    | .error e => .error e
    | .ok r => .ok r.repositories

/-- The per-repository pagination loop of a fetch task: while the
accumulated response says to continue (has_next_page with the optional
cutoff date), fetch the next page via get_stats (propagating its error
with ?) and extend the accumulator. -/
def prFetchLoop (date : Option Int) : RepositoryResponse →
    List (FetchOutcome RepositoryResponse) →
    Except FetchError RepositoryResponse
  | acc, [] => .ok acc
  | acc, o :: rest =>
    if acc.has_next_page date then
      match get_stats o with
      | .error e => .error e
      | .ok p => prFetchLoop date (acc.extend p) rest
    else .ok acc

/-- One spawned per-repository task (the async block in main): first fetch,
pagination loop, then the trim step. Errors propagate with ?. -/
def fetchTask (date : Option Int) (first : FetchOutcome RepositoryResponse)
    (rest : List (FetchOutcome RepositoryResponse)) :
    Except FetchError RepositoryResponse :=
  match get_stats first with
  | .error e => .error e
  | .ok r0 =>
    match prFetchLoop date r0 rest with
    | .error e => .error e
    | .ok r => .ok (r.trim date)

/-- struct UserStats: the per-contributor accumulator. -/
structure UserStats where
  approvals : Nat
  requested_changes : Nat
  comments : Nat
  pull_requests : Nat
  additions : Nat
  deletions : Nat
  changed_files : Nat
  score : Nat
deriving Repr, DecidableEq

/-- UserStats::new(): all fields zero. -/
def UserStats.new : UserStats :=
  ⟨0, 0, 0, 0, 0, 0, 0, 0⟩

/-- The aggregate map: struct GitHubUsers wraps a map from login to stats,
modelled as an association list in insertion order. -/
abbrev GitHubUsers := List (String × UserStats)

/-- HashMap::entry(login).or_insert(UserStats::new()) followed by an
in-place mutation f of the entry: update the existing entry for login, or
append a fresh one obtained by applying f to UserStats::new(). -/
def entryUpdate (m : GitHubUsers) (login : String)
    (f : UserStats → UserStats) : GitHubUsers :=
  match m with
  | [] => [(login, f UserStats.new)]
  | (k, v) :: rest =>
    if k = login then (k, f v) :: rest
    else (k, v) :: entryUpdate rest login f

/-- The review branch of the reduction in main: increment the reviewer's
counter selected by the review state; an unrecognized state increments
nothing. -/
def applyReview (m : GitHubUsers) (review : Review) : GitHubUsers :=
  entryUpdate m review.author.login (fun s =>
    if review.state = "APPROVED" then { s with approvals := s.approvals + 1 }
    else if review.state = "COMMENTED" then { s with comments := s.comments + 1 }
    else if review.state = "CHANGES_REQUESTED" then
      { s with requested_changes := s.requested_changes + 1 }
    else s)

/-- The comment branch of the reduction in main: increment the commenter's
comment counter. -/
def applyComment (m : GitHubUsers) (c : Comment) : GitHubUsers :=
  entryUpdate m c.author.login (fun s => { s with comments := s.comments + 1 })

/-- The per-pull-request body of the reduction in main: credit the author's
line/file/pull-request totals, then fold over the nested reviews, then over
the nested comments. -/
def applyPullRequest (m : GitHubUsers) (pr : PullRequest) : GitHubUsers :=
  let m1 := entryUpdate m pr.author.login (fun s =>
    { s with
      additions := s.additions + pr.additions
      deletions := s.deletions + pr.deletions
      changed_files := s.changed_files + pr.changed_files
      pull_requests := s.pull_requests + 1 })
  let m2 := pr.reviews.foldl applyReview m1
  pr.comments.foldl applyComment m2

/-- The mutable state of main's aggregation loop: the user map and the two
run-level counters loc and prs. -/
structure AggState where
  users : GitHubUsers
  loc : Nat
  prs : Nat
deriving Repr, DecidableEq

/-- Processing one pull request inside main's aggregation loop: update the
user map and bump prs by one and loc by additions + deletions. -/
def aggregatePR (st : AggState) (pr : PullRequest) : AggState :=
  { users := applyPullRequest st.users pr
    loc := st.loc + (pr.additions + pr.deletions)
    prs := st.prs + 1 }

/-- Processing one joined repository response: fold over its nodes. -/
def aggregateResponse (st : AggState) (resp : RepositoryResponse) : AggState :=
  resp.nodes.foldl aggregatePR st

/-- main's join loop: consume task results in completion order; the two
?-operators propagate the first task error, abandoning the loop (and with
it the accumulated state and all later results). -/
def runAggregate : AggState → List (Except FetchError RepositoryResponse) →
    Except FetchError AggState
  | st, [] => .ok st
  | st, r :: rest =>
    match r with
    | .error e => .error e
    | .ok resp => runAggregate (aggregateResponse st resp) rest

/-- The score expression of GitHubUsers::finalize, verbatim from the
source: approvals*weight + comments*weight + requested_changes*2*weight
+ additions + deletions*(weight/10). -/
def scoreOf (weight : Nat) (s : UserStats) : Nat :=
  s.approvals * weight + s.comments * weight +
    s.requested_changes * 2 * weight + s.additions +
    s.deletions * (weight / 10)

/-- GitHubUsers::finalize: clone each entry with its score populated, then
stably sort by score descending (Rust sort_by with comparator
b.score.cmp(a.score); mergeSort is the corresponding stable sort). -/
def finalize (users : GitHubUsers) (weight : Nat) : List (String × UserStats) :=
  let v := users.map (fun p => (p.1, { p.2 with score := scoreOf weight p.2 }))
  v.mergeSort (fun a b => decide (b.2.score ≤ a.2.score))

/-- The observable outcome of the tail of main after the join loop: a
normal ranked report, a propagated error, or the integer-division panic
Rust raises when the divisor is zero. -/
inductive RunOutcome where
  | ok : List (String × UserStats) → RunOutcome
  | err : FetchError → RunOutcome
  | panicked : RunOutcome
deriving Repr, DecidableEq

/-- The tail of main after the join loop: let scale = loc / prs (a Rust u64
division, which panics when prs = 0), then finalize. -/
def finishRun (loc prs : Nat) (users : GitHubUsers) : RunOutcome :=
  if prs = 0 then .panicked
  else .ok (finalize users (loc / prs))

/-- main from the join loop onward: aggregate the task results in
completion order, then compute the weight and the ranked report. -/
def runMain (results : List (Except FetchError RepositoryResponse)) :
    RunOutcome :=
  match runAggregate ⟨[], 0, 0⟩ results with
  | .error e => .err e
  | .ok st => finishRun st.loc st.prs st.users

/-! Specification-side definitions: per-login contributions stated directly
as sums, used to characterize the reduction. -/

/-- Componentwise sum of two accumulators. -/
def addStats (a b : UserStats) : UserStats :=
  ⟨a.approvals + b.approvals, a.requested_changes + b.requested_changes,
   a.comments + b.comments, a.pull_requests + b.pull_requests,
   a.additions + b.additions, a.deletions + b.deletions,
   a.changed_files + b.changed_files, a.score + b.score⟩

/-- Sum of a list of accumulators. -/
def sumStats (l : List UserStats) : UserStats :=
  l.foldr addStats UserStats.new

/-- What authoring one pull request contributes to its author. -/
def prDelta (pr : PullRequest) : UserStats :=
  ⟨0, 0, 0, 1, pr.additions, pr.deletions, pr.changed_files, 0⟩

/-- What one review contributes to its reviewer, by disposition; an
unrecognized disposition contributes nothing. -/
def reviewDelta (rv : Review) : UserStats :=
  if rv.state = "APPROVED" then ⟨1, 0, 0, 0, 0, 0, 0, 0⟩
  else if rv.state = "COMMENTED" then ⟨0, 0, 1, 0, 0, 0, 0, 0⟩
  else if rv.state = "CHANGES_REQUESTED" then ⟨0, 1, 0, 0, 0, 0, 0, 0⟩
  else UserStats.new

/-- What one comment contributes to its commenter. -/
def commentDelta : UserStats :=
  ⟨0, 0, 1, 0, 0, 0, 0, 0⟩

/-- The total contribution of one pull request to a given login, summed
over the three roles (author, reviewer, commenter). -/
def prContrib (login : String) (pr : PullRequest) : UserStats :=
  addStats (if pr.author.login = login then prDelta pr else UserStats.new)
    (addStats
      (sumStats ((pr.reviews.filter (fun rv => rv.author.login == login)).map reviewDelta))
      (sumStats ((pr.comments.filter (fun c => c.author.login == login)).map
        (fun _ => commentDelta))))

/-- The total contribution of a pull-request list to a given login. -/
def contribOf (login : String) (prs : List PullRequest) : UserStats :=
  sumStats (prs.map (prContrib login))

/-- Whether a login is encountered anywhere in a pull-request list, in any
role. -/
def touched (login : String) (prs : List PullRequest) : Bool :=
  prs.any (fun pr =>
    pr.author.login == login
      || pr.reviews.any (fun rv => rv.author.login == login)
      || pr.comments.any (fun c => c.author.login == login))

/-- Whether a login is encountered in one pull request. -/
def touchedPR (login : String) (pr : PullRequest) : Bool :=
  pr.author.login == login
    || pr.reviews.any (fun rv => rv.author.login == login)
    || pr.comments.any (fun c => c.author.login == login)

/-- The stats recorded for a login in the aggregate map, all-zero when the
login has no entry. -/
def statsOf (m : GitHubUsers) (q : String) : UserStats :=
  (m.lookup q).getD UserStats.new

/-- Sum over the whole aggregate of additions + deletions. -/
def totalAddDel (m : GitHubUsers) : Nat :=
  (m.map (fun p => p.2.additions + p.2.deletions)).sum

/-- Sum of additions + deletions over all pull requests of a response
list: the quantity main's loc counter accumulates. -/
def totalLocOf (resps : List RepositoryResponse) : Nat :=
  (((resps.map RepositoryResponse.nodes).flatten).map
    (fun pr => pr.additions + pr.deletions)).sum

/-- Number of pull requests in a response list: the quantity main's prs
counter accumulates. -/
def totalPRsOf (resps : List RepositoryResponse) : Nat :=
  ((resps.map RepositoryResponse.nodes).flatten).length

/-- The aggregation of a completed response list, as main performs it
(fold of aggregateResponse from the empty state). -/
def mainAggregate (resps : List RepositoryResponse) : AggState :=
  resps.foldl aggregateResponse ⟨[], 0, 0⟩

/-! Helper lemmas about the accumulator algebra. -/

theorem addStats_new_left (s : UserStats) : addStats UserStats.new s = s := by
  cases s
  simp [addStats, UserStats.new]

theorem addStats_new_right (s : UserStats) : addStats s UserStats.new = s := by
  cases s
  simp [addStats, UserStats.new]

theorem addStats_assoc (a b c : UserStats) :
    addStats (addStats a b) c = addStats a (addStats b c) := by
  cases a
  cases b
  cases c
  simp [addStats, Nat.add_assoc]

theorem sumStats_nil : sumStats [] = UserStats.new := rfl

theorem sumStats_cons (x : UserStats) (l : List UserStats) :
    sumStats (x :: l) = addStats x (sumStats l) := rfl

theorem sumStats_append (l₁ l₂ : List UserStats) :
    sumStats (l₁ ++ l₂) = addStats (sumStats l₁) (sumStats l₂) := by
  induction l₁ with
  | nil => simp [sumStats_nil, addStats_new_left]
  | cons x xs ih =>
    simp only [List.cons_append, sumStats_cons, ih, addStats_assoc]

theorem sumStats_all_new {l : List UserStats}
    (h : ∀ x ∈ l, x = UserStats.new) : sumStats l = UserStats.new := by
  induction l with
  | nil => rfl
  | cons x xs ih =>
    rw [sumStats_cons, h x (by simp), ih (fun y hy => h y (by simp [hy]))]
    exact addStats_new_left _

/-! Helper lemmas about the aggregate map: lookup and keys through
entryUpdate and through the reduction steps. -/

theorem lookup_cons_if (k q : String) (v : UserStats) (rest : GitHubUsers) :
    ((k, v) :: rest).lookup q = if k = q then some v else rest.lookup q := by
  rw [List.lookup_cons]
  by_cases hkq : k = q
  · subst hkq
    simp
  · have hq : (q == k) = false := by
      rw [beq_eq_false_iff_ne]
      intro hqk
      exact hkq hqk.symm
    simp [hq, hkq]

theorem entryUpdate_cons_self (k : String) (v : UserStats)
    (rest : GitHubUsers) (f : UserStats → UserStats) :
    entryUpdate ((k, v) :: rest) k f = (k, f v) :: rest := by
  simp [entryUpdate]

theorem entryUpdate_cons_ne (k login : String) (v : UserStats)
    (rest : GitHubUsers) (f : UserStats → UserStats) (h : ¬k = login) :
    entryUpdate ((k, v) :: rest) login f = (k, v) :: entryUpdate rest login f := by
  simp [entryUpdate, h]

theorem statsOf_cons_ne (k q : String) (v : UserStats) (rest : GitHubUsers)
    (h : ¬k = q) : statsOf ((k, v) :: rest) q = statsOf rest q := by
  simp [statsOf, lookup_cons_if, h]

theorem lookup_entryUpdate (m : GitHubUsers) (login q : String)
    (f : UserStats → UserStats) :
    (entryUpdate m login f).lookup q =
      if login = q then some (f (statsOf m q)) else m.lookup q := by
  induction m with
  | nil =>
    by_cases h : login = q <;>
      simp [entryUpdate, lookup_cons_if, statsOf, h]
  | cons p rest ih =>
    obtain ⟨k, v⟩ := p
    by_cases hk : k = login
    · subst hk
      rw [entryUpdate_cons_self]
      by_cases hq : k = q
      · subst hq
        simp [lookup_cons_if, statsOf]
      · simp [lookup_cons_if, hq]
    · rw [entryUpdate_cons_ne k login v rest f hk]
      by_cases hq : k = q
      · subst hq
        have hlq : ¬login = k := fun h => hk h.symm
        simp [lookup_cons_if, hlq]
      · rw [lookup_cons_if, if_neg hq, ih, lookup_cons_if, if_neg hq,
          statsOf_cons_ne k q v rest hq]

theorem statsOf_entryUpdate (m : GitHubUsers) (login q : String)
    (f : UserStats → UserStats) :
    statsOf (entryUpdate m login f) q =
      if login = q then f (statsOf m q) else statsOf m q := by
  by_cases h : login = q <;>
    simp [statsOf, lookup_entryUpdate, h]

theorem mem_keys_entryUpdate (m : GitHubUsers) (login q : String)
    (f : UserStats → UserStats) :
    q ∈ (entryUpdate m login f).map Prod.fst ↔
      q ∈ m.map Prod.fst ∨ q = login := by
  induction m with
  | nil => simp [entryUpdate, eq_comm]
  | cons p rest ih =>
    obtain ⟨k, v⟩ := p
    by_cases hk : k = login
    · subst hk
      rw [entryUpdate_cons_self]
      simp only [List.map_cons, List.mem_cons]
      tauto
    · rw [entryUpdate_cons_ne k login v rest f hk]
      simp only [List.map_cons, List.mem_cons, ih]
      tauto

theorem keys_entryUpdate_of_mem (m : GitHubUsers) (login : String)
    (f : UserStats → UserStats) (h : login ∈ m.map Prod.fst) :
    (entryUpdate m login f).map Prod.fst = m.map Prod.fst := by
  induction m with
  | nil => simp at h
  | cons p rest ih =>
    obtain ⟨k, v⟩ := p
    by_cases hk : k = login
    · subst hk
      rw [entryUpdate_cons_self]
      simp
    · simp only [List.map_cons, List.mem_cons] at h
      rcases h with h | h
      · exact absurd h.symm hk
      · rw [entryUpdate_cons_ne k login v rest f hk]
        simp [ih h]

theorem keys_entryUpdate_of_not_mem (m : GitHubUsers) (login : String)
    (f : UserStats → UserStats) (h : login ∉ m.map Prod.fst) :
    (entryUpdate m login f).map Prod.fst = m.map Prod.fst ++ [login] := by
  induction m with
  | nil => simp [entryUpdate]
  | cons p rest ih =>
    obtain ⟨k, v⟩ := p
    simp only [List.map_cons, List.mem_cons] at h
    push_neg at h
    have hk : ¬k = login := fun hkl => h.1 hkl.symm
    rw [entryUpdate_cons_ne k login v rest f hk]
    simp [ih h.2]

theorem nodup_keys_entryUpdate (m : GitHubUsers) (login : String)
    (f : UserStats → UserStats) (h : (m.map Prod.fst).Nodup) :
    ((entryUpdate m login f).map Prod.fst).Nodup := by
  by_cases hmem : login ∈ m.map Prod.fst
  · rw [keys_entryUpdate_of_mem m login f hmem]
    exact h
  · rw [keys_entryUpdate_of_not_mem m login f hmem]
    simp [List.nodup_append, h, hmem]

/-! Step lemmas: the effect of each reduction step on the stats recorded
for an arbitrary login. -/

theorem applyReview_fun_eq (rv : Review) (s : UserStats) :
    (if rv.state = "APPROVED" then { s with approvals := s.approvals + 1 }
     else if rv.state = "COMMENTED" then { s with comments := s.comments + 1 }
     else if rv.state = "CHANGES_REQUESTED" then
       { s with requested_changes := s.requested_changes + 1 }
     else s) = addStats s (reviewDelta rv) := by
  cases s
  unfold reviewDelta
  split_ifs <;> simp [addStats, UserStats.new]

theorem statsOf_applyReview (m : GitHubUsers) (rv : Review) (q : String) :
    statsOf (applyReview m rv) q =
      addStats (statsOf m q)
        (if rv.author.login = q then reviewDelta rv else UserStats.new) := by
  unfold applyReview
  rw [statsOf_entryUpdate]
  by_cases hq : rv.author.login = q
  · rw [if_pos hq, if_pos hq]
    exact applyReview_fun_eq rv (statsOf m q)
  · rw [if_neg hq, if_neg hq, addStats_new_right]

theorem statsOf_applyComment (m : GitHubUsers) (c : Comment) (q : String) :
    statsOf (applyComment m c) q =
      addStats (statsOf m q)
        (if c.author.login = q then commentDelta else UserStats.new) := by
  unfold applyComment
  rw [statsOf_entryUpdate]
  by_cases hq : c.author.login = q
  · rw [if_pos hq, if_pos hq]
    cases statsOf m q
    simp [addStats, commentDelta]
  · rw [if_neg hq, if_neg hq, addStats_new_right]

theorem statsOf_authorStep (m : GitHubUsers) (pr : PullRequest) (q : String) :
    statsOf (entryUpdate m pr.author.login (fun s =>
      { s with
        additions := s.additions + pr.additions
        deletions := s.deletions + pr.deletions
        changed_files := s.changed_files + pr.changed_files
        pull_requests := s.pull_requests + 1 })) q =
      addStats (statsOf m q)
        (if pr.author.login = q then prDelta pr else UserStats.new) := by
  rw [statsOf_entryUpdate]
  by_cases hq : pr.author.login = q
  · rw [if_pos hq, if_pos hq]
    cases statsOf m q
    simp [addStats, prDelta]
  · rw [if_neg hq, if_neg hq, addStats_new_right]

theorem statsOf_foldl_applyReview (rs : List Review) (m : GitHubUsers)
    (q : String) :
    statsOf (rs.foldl applyReview m) q =
      addStats (statsOf m q)
        (sumStats ((rs.filter (fun rv => rv.author.login == q)).map
          reviewDelta)) := by
  induction rs generalizing m with
  | nil => simp [sumStats_nil, addStats_new_right]
  | cons rv rs ih =>
    rw [List.foldl_cons, ih, statsOf_applyReview]
    by_cases hq : rv.author.login = q
    · rw [if_pos hq, addStats_assoc]
      have hf : (rv :: rs).filter (fun r => r.author.login == q) =
          rv :: rs.filter (fun r => r.author.login == q) := by
        simp [List.filter_cons, hq]
      rw [hf, List.map_cons, sumStats_cons]
    · rw [if_neg hq, addStats_new_right]
      have hf : (rv :: rs).filter (fun r => r.author.login == q) =
          rs.filter (fun r => r.author.login == q) := by
        simp [List.filter_cons, hq]
      rw [hf]

theorem statsOf_foldl_applyComment (cs : List Comment) (m : GitHubUsers)
    (q : String) :
    statsOf (cs.foldl applyComment m) q =
      addStats (statsOf m q)
        (sumStats ((cs.filter (fun c => c.author.login == q)).map
          (fun _ => commentDelta))) := by
  induction cs generalizing m with
  | nil => simp [sumStats_nil, addStats_new_right]
  | cons c cs ih =>
    rw [List.foldl_cons, ih, statsOf_applyComment]
    by_cases hq : c.author.login = q
    · rw [if_pos hq, addStats_assoc]
      have hf : (c :: cs).filter (fun x => x.author.login == q) =
          c :: cs.filter (fun x => x.author.login == q) := by
        simp [List.filter_cons, hq]
      rw [hf, List.map_cons, sumStats_cons]
    · rw [if_neg hq, addStats_new_right]
      have hf : (c :: cs).filter (fun x => x.author.login == q) =
          cs.filter (fun x => x.author.login == q) := by
        simp [List.filter_cons, hq]
      rw [hf]

theorem statsOf_applyPullRequest (m : GitHubUsers) (pr : PullRequest)
    (q : String) :
    statsOf (applyPullRequest m pr) q =
      addStats (statsOf m q) (prContrib q pr) := by
  unfold applyPullRequest prContrib
  rw [statsOf_foldl_applyComment, statsOf_foldl_applyReview, statsOf_authorStep,
    addStats_assoc, addStats_assoc]

theorem contribOf_cons (q : String) (pr : PullRequest)
    (prs : List PullRequest) :
    contribOf q (pr :: prs) = addStats (prContrib q pr) (contribOf q prs) := by
  simp [contribOf, sumStats_cons]

theorem statsOf_foldl_applyPullRequest (prs : List PullRequest)
    (m : GitHubUsers) (q : String) :
    statsOf (prs.foldl applyPullRequest m) q =
      addStats (statsOf m q) (contribOf q prs) := by
  induction prs generalizing m with
  | nil => simp [contribOf, sumStats_nil, addStats_new_right]
  | cons pr prs ih =>
    rw [List.foldl_cons, ih, statsOf_applyPullRequest, contribOf_cons,
      addStats_assoc]

theorem statsOf_nil (q : String) : statsOf [] q = UserStats.new := rfl

/-! Key-set lemmas: which logins have an entry after each reduction step. -/

theorem mem_keys_applyReview (m : GitHubUsers) (rv : Review) (q : String) :
    q ∈ (applyReview m rv).map Prod.fst ↔
      q ∈ m.map Prod.fst ∨ q = rv.author.login := by
  unfold applyReview
  exact mem_keys_entryUpdate m rv.author.login q _

theorem mem_keys_applyComment (m : GitHubUsers) (c : Comment) (q : String) :
    q ∈ (applyComment m c).map Prod.fst ↔
      q ∈ m.map Prod.fst ∨ q = c.author.login := by
  unfold applyComment
  exact mem_keys_entryUpdate m c.author.login q _

theorem mem_keys_foldl_applyReview (rs : List Review) (m : GitHubUsers)
    (q : String) :
    q ∈ (rs.foldl applyReview m).map Prod.fst ↔
      q ∈ m.map Prod.fst ∨ rs.any (fun rv => rv.author.login == q) = true := by
  induction rs generalizing m with
  | nil => simp
  | cons rv rs ih =>
    rw [List.foldl_cons, ih, mem_keys_applyReview]
    simp only [List.any_cons, Bool.or_eq_true, beq_iff_eq]
    constructor
    · rintro ((h | h) | h)
      · exact Or.inl h
      · exact Or.inr (Or.inl h.symm)
      · exact Or.inr (Or.inr h)
    · rintro (h | h | h)
      · exact Or.inl (Or.inl h)
      · exact Or.inl (Or.inr h.symm)
      · exact Or.inr h

theorem mem_keys_foldl_applyComment (cs : List Comment) (m : GitHubUsers)
    (q : String) :
    q ∈ (cs.foldl applyComment m).map Prod.fst ↔
      q ∈ m.map Prod.fst ∨ cs.any (fun c => c.author.login == q) = true := by
  induction cs generalizing m with
  | nil => simp
  | cons c cs ih =>
    rw [List.foldl_cons, ih, mem_keys_applyComment]
    simp only [List.any_cons, Bool.or_eq_true, beq_iff_eq]
    constructor
    · rintro ((h | h) | h)
      · exact Or.inl h
      · exact Or.inr (Or.inl h.symm)
      · exact Or.inr (Or.inr h)
    · rintro (h | h | h)
      · exact Or.inl (Or.inl h)
      · exact Or.inl (Or.inr h.symm)
      · exact Or.inr h

theorem mem_keys_applyPullRequest (m : GitHubUsers) (pr : PullRequest)
    (q : String) :
    q ∈ (applyPullRequest m pr).map Prod.fst ↔
      q ∈ m.map Prod.fst ∨ touchedPR q pr = true := by
  unfold applyPullRequest
  rw [mem_keys_foldl_applyComment, mem_keys_foldl_applyReview,
    mem_keys_entryUpdate]
  have ht : touchedPR q pr = true ↔
      pr.author.login = q ∨
        (pr.reviews.any fun rv => rv.author.login == q) = true ∨
        (pr.comments.any fun c => c.author.login == q) = true := by
    unfold touchedPR
    simp only [Bool.or_eq_true, beq_iff_eq, or_assoc]
  rw [ht]
  constructor
  · rintro (((h | h) | h) | h)
    · exact Or.inl h
    · exact Or.inr (Or.inl h.symm)
    · exact Or.inr (Or.inr (Or.inl h))
    · exact Or.inr (Or.inr (Or.inr h))
  · rintro (h | (h | h | h))
    · exact Or.inl (Or.inl (Or.inl h))
    · exact Or.inl (Or.inl (Or.inr h.symm))
    · exact Or.inl (Or.inr h)
    · exact Or.inr h

theorem mem_keys_foldl_applyPullRequest (prs : List PullRequest)
    (m : GitHubUsers) (q : String) :
    q ∈ (prs.foldl applyPullRequest m).map Prod.fst ↔
      q ∈ m.map Prod.fst ∨ touched q prs = true := by
  induction prs generalizing m with
  | nil => simp [touched]
  | cons pr prs ih =>
    rw [List.foldl_cons, ih, mem_keys_applyPullRequest]
    have ht : touched q (pr :: prs) = (touchedPR q pr || touched q prs) := by
      simp [touched, touchedPR, List.any_cons]
    rw [ht]
    simp only [Bool.or_eq_true]
    tauto

theorem nodup_keys_applyReview (m : GitHubUsers) (rv : Review)
    (h : (m.map Prod.fst).Nodup) :
    ((applyReview m rv).map Prod.fst).Nodup := by
  unfold applyReview
  exact nodup_keys_entryUpdate _ _ _ h

theorem nodup_keys_applyComment (m : GitHubUsers) (c : Comment)
    (h : (m.map Prod.fst).Nodup) :
    ((applyComment m c).map Prod.fst).Nodup := by
  unfold applyComment
  exact nodup_keys_entryUpdate _ _ _ h

theorem nodup_keys_foldl_applyReview (rs : List Review) (m : GitHubUsers)
    (h : (m.map Prod.fst).Nodup) :
    ((rs.foldl applyReview m).map Prod.fst).Nodup := by
  induction rs generalizing m with
  | nil => exact h
  | cons rv rs ih =>
    rw [List.foldl_cons]
    exact ih _ (nodup_keys_applyReview m rv h)

theorem nodup_keys_foldl_applyComment (cs : List Comment) (m : GitHubUsers)
    (h : (m.map Prod.fst).Nodup) :
    ((cs.foldl applyComment m).map Prod.fst).Nodup := by
  induction cs generalizing m with
  | nil => exact h
  | cons c cs ih =>
    rw [List.foldl_cons]
    exact ih _ (nodup_keys_applyComment m c h)

theorem nodup_keys_applyPullRequest (m : GitHubUsers) (pr : PullRequest)
    (h : (m.map Prod.fst).Nodup) :
    ((applyPullRequest m pr).map Prod.fst).Nodup :=
  nodup_keys_foldl_applyComment _ _
    (nodup_keys_foldl_applyReview _ _ (nodup_keys_entryUpdate _ _ _ h))

theorem nodup_keys_foldl_applyPullRequest (prs : List PullRequest)
    (m : GitHubUsers) (h : (m.map Prod.fst).Nodup) :
    ((prs.foldl applyPullRequest m).map Prod.fst).Nodup := by
  induction prs generalizing m with
  | nil => exact h
  | cons pr prs ih =>
    rw [List.foldl_cons]
    exact ih _ (nodup_keys_applyPullRequest m pr h)

theorem lookup_isSome_iff_mem_keys (m : GitHubUsers) (q : String) :
    (m.lookup q).isSome = true ↔ q ∈ m.map Prod.fst := by
  induction m with
  | nil => simp
  | cons p rest ih =>
    obtain ⟨k, v⟩ := p
    rw [lookup_cons_if]
    by_cases hk : k = q
    · subst hk
      simp
    · have hqk : ¬q = k := fun h => hk h.symm
      simp [hk, hqk, ih]

theorem mem_of_lookup_eq_some {m : GitHubUsers} {q : String} {v : UserStats}
    (h : m.lookup q = some v) : (q, v) ∈ m := by
  induction m with
  | nil => simp [List.lookup] at h
  | cons p rest ih =>
    obtain ⟨k, w⟩ := p
    rw [lookup_cons_if] at h
    by_cases hk : k = q
    · subst hk
      rw [if_pos rfl] at h
      cases h
      exact List.mem_cons_self _ _
    · rw [if_neg hk] at h
      exact List.mem_cons_of_mem _ (ih h)

/-! Conservation lemmas: the sum of additions + deletions over the whole
aggregate map grows by exactly the delta each step contributes. -/

theorem totalAddDel_nil : totalAddDel [] = 0 := rfl

theorem totalAddDel_cons (k : String) (v : UserStats) (rest : GitHubUsers) :
    totalAddDel ((k, v) :: rest) =
      (v.additions + v.deletions) + totalAddDel rest := by
  simp [totalAddDel]

theorem totalAddDel_entryUpdate (m : GitHubUsers) (k : String)
    (f : UserStats → UserStats) (c : Nat)
    (hf : ∀ s, (f s).additions + (f s).deletions =
      s.additions + s.deletions + c) :
    totalAddDel (entryUpdate m k f) = totalAddDel m + c := by
  induction m with
  | nil =>
    have h := hf UserStats.new
    rw [show UserStats.new.additions = 0 from rfl,
      show UserStats.new.deletions = 0 from rfl] at h
    simp only [entryUpdate, totalAddDel_cons, totalAddDel_nil]
    omega
  | cons p rest ih =>
    obtain ⟨k', v⟩ := p
    by_cases hk : k' = k
    · subst hk
      rw [entryUpdate_cons_self, totalAddDel_cons, totalAddDel_cons]
      have h := hf v
      omega
    · rw [entryUpdate_cons_ne k' k v rest f hk, totalAddDel_cons,
        totalAddDel_cons, ih]
      omega

theorem totalAddDel_applyReview (m : GitHubUsers) (rv : Review) :
    totalAddDel (applyReview m rv) = totalAddDel m := by
  unfold applyReview
  have hz : totalAddDel m + 0 = totalAddDel m := by omega
  exact (totalAddDel_entryUpdate _ _ _ 0 (by
    intro s
    split_ifs <;> simp)).trans hz

theorem totalAddDel_applyComment (m : GitHubUsers) (c : Comment) :
    totalAddDel (applyComment m c) = totalAddDel m := by
  unfold applyComment
  have hz : totalAddDel m + 0 = totalAddDel m := by omega
  exact (totalAddDel_entryUpdate _ _ _ 0 (by intro s; simp)).trans hz

theorem totalAddDel_foldl_applyReview (rs : List Review) (m : GitHubUsers) :
    totalAddDel (rs.foldl applyReview m) = totalAddDel m := by
  induction rs generalizing m with
  | nil => rfl
  | cons rv rs ih =>
    rw [List.foldl_cons, ih, totalAddDel_applyReview]

theorem totalAddDel_foldl_applyComment (cs : List Comment) (m : GitHubUsers) :
    totalAddDel (cs.foldl applyComment m) = totalAddDel m := by
  induction cs generalizing m with
  | nil => rfl
  | cons c cs ih =>
    rw [List.foldl_cons, ih, totalAddDel_applyComment]

theorem totalAddDel_applyPullRequest (m : GitHubUsers) (pr : PullRequest) :
    totalAddDel (applyPullRequest m pr) =
      totalAddDel m + (pr.additions + pr.deletions) := by
  unfold applyPullRequest
  rw [totalAddDel_foldl_applyComment, totalAddDel_foldl_applyReview]
  exact totalAddDel_entryUpdate _ _ _ (pr.additions + pr.deletions) (by
    intro s
    simp only []
    omega)

/-- Sum of additions + deletions over a pull-request list. -/
def sumLoc (prs : List PullRequest) : Nat :=
  (prs.map (fun pr => pr.additions + pr.deletions)).sum

theorem totalAddDel_foldl_applyPullRequest (prs : List PullRequest)
    (m : GitHubUsers) :
    totalAddDel (prs.foldl applyPullRequest m) =
      totalAddDel m + sumLoc prs := by
  induction prs generalizing m with
  | nil => simp [sumLoc]
  | cons pr prs ih =>
    rw [List.foldl_cons, ih, totalAddDel_applyPullRequest]
    simp [sumLoc]
    omega

/-! Lemmas describing main's aggregation loop. -/

theorem foldl_aggregatePR (prs : List PullRequest) (st : AggState) :
    prs.foldl aggregatePR st =
      ⟨prs.foldl applyPullRequest st.users,
        st.loc + sumLoc prs, st.prs + prs.length⟩ := by
  induction prs generalizing st with
  | nil => simp [sumLoc]
  | cons pr prs ih =>
    rw [List.foldl_cons]
    rw [ih]
    simp [aggregatePR, sumLoc]
    omega

theorem aggregateResponse_eq (st : AggState) (resp : RepositoryResponse) :
    aggregateResponse st resp =
      ⟨resp.nodes.foldl applyPullRequest st.users,
        st.loc + sumLoc resp.nodes, st.prs + resp.nodes.length⟩ :=
  foldl_aggregatePR resp.nodes st

theorem foldl_aggregateResponse (resps : List RepositoryResponse)
    (st : AggState) :
    resps.foldl aggregateResponse st =
      ⟨((resps.map RepositoryResponse.nodes).flatten).foldl
          applyPullRequest st.users,
        st.loc + totalLocOf resps, st.prs + totalPRsOf resps⟩ := by
  induction resps generalizing st with
  | nil => simp [totalLocOf, totalPRsOf]
  | cons resp resps ih =>
    rw [List.foldl_cons, ih, aggregateResponse_eq]
    simp only [List.map_cons, List.flatten_cons, List.foldl_append]
    have hloc : totalLocOf (resp :: resps) =
        sumLoc resp.nodes + totalLocOf resps := by
      simp [totalLocOf, sumLoc]
    have hprs : totalPRsOf (resp :: resps) =
        resp.nodes.length + totalPRsOf resps := by
      simp [totalPRsOf]
    rw [hloc, hprs]
    simp [Nat.add_assoc]

theorem mainAggregate_eq (resps : List RepositoryResponse) :
    mainAggregate resps =
      ⟨((resps.map RepositoryResponse.nodes).flatten).foldl
          applyPullRequest [],
        totalLocOf resps, totalPRsOf resps⟩ := by
  unfold mainAggregate
  rw [foldl_aggregateResponse]
  simp

theorem runAggregate_map_ok (resps : List RepositoryResponse) (st : AggState) :
    runAggregate st (resps.map Except.ok) =
      .ok (resps.foldl aggregateResponse st) := by
  induction resps generalizing st with
  | nil => rfl
  | cons resp resps ih =>
    rw [List.map_cons, List.foldl_cons]
    exact ih (aggregateResponse st resp)

theorem runAggregate_first_error (pre : List RepositoryResponse)
    (e : FetchError) (rest : List (Except FetchError RepositoryResponse))
    (st : AggState) :
    runAggregate st (pre.map Except.ok ++ Except.error e :: rest) =
      .error e := by
  induction pre generalizing st with
  | nil => rfl
  | cons resp pre ih =>
    rw [List.map_cons, List.cons_append]
    exact ih (aggregateResponse st resp)

theorem mainAggregate_users (resps : List RepositoryResponse) :
    (mainAggregate resps).users =
      ((resps.map RepositoryResponse.nodes).flatten).foldl
        applyPullRequest [] := by
  rw [mainAggregate_eq]

theorem mainAggregate_loc (resps : List RepositoryResponse) :
    (mainAggregate resps).loc = totalLocOf resps := by
  rw [mainAggregate_eq]

theorem mainAggregate_prs (resps : List RepositoryResponse) :
    (mainAggregate resps).prs = totalPRsOf resps := by
  rw [mainAggregate_eq]

theorem totalPRsOf_all_nil (resps : List RepositoryResponse)
    (h : ∀ r ∈ resps, r.nodes = []) : totalPRsOf resps = 0 := by
  induction resps with
  | nil => rfl
  | cons r rs ih =>
    have hr : r.nodes = [] := h r (by simp)
    have hrs := ih (fun x hx => h x (by simp [hx]))
    unfold totalPRsOf at hrs ⊢
    simp [hr, hrs]

theorem has_next_page_extend_empty (x : RepositoryResponse)
    (date : Option Int) :
    (x.extend RepositoryResponse.empty).has_next_page date = false := by
  unfold RepositoryResponse.has_next_page
  exact Bool.and_false _

theorem prFetchLoop_extend_empty (date : Option Int) (x : RepositoryResponse)
    (rest : List (FetchOutcome RepositoryResponse)) :
    prFetchLoop date (x.extend RepositoryResponse.empty) rest =
      .ok (x.extend RepositoryResponse.empty) := by
  cases rest with
  | nil => rfl
  | cons o rest =>
    unfold prFetchLoop
    rw [has_next_page_extend_empty]
    simp

/-! Concrete sample data for witnesses and counterexamples. -/

/-- A sample approved review by bob. -/
def sampleReview : Review := ⟨⟨"bob"⟩, "APPROVED"⟩

/-- A sample pull request by alice, merged on day 20, with 10 added and 2
removed lines. -/
def samplePR : PullRequest := ⟨[sampleReview], [], 20, 10, 2, 3, ⟨"alice"⟩⟩

/-- A sample final page holding samplePR. -/
def sampleResp : RepositoryResponse := ⟨⟨⟨⟨[samplePR], ⟨"c1", false⟩⟩⟩⟩⟩

/-- A sample non-final page (hasNextPage set) holding samplePR. -/
def pageA : RepositoryResponse := ⟨⟨⟨⟨[samplePR], ⟨"cA", true⟩⟩⟩⟩⟩

/-- A sample non-final organization page listing one repository. -/
def orgPage1 : OrganizationResponse := ⟨⟨⟨⟨[⟨⟨"repo1"⟩⟩], ⟨"oc1", true⟩⟩⟩⟩⟩

/-! Claim theorems. -/

/-- Claim C3: for every repository result and every cutoff date D, the trim
step retains exactly the fetched pull requests whose merge timestamp is
strictly after D (every item merged on or before D is removed), and when no
cutoff date is supplied the response is unchanged. -/
theorem trim_retains_exactly_strictly_after (r : RepositoryResponse)
    (d : Int) :
    (r.trim (some d)).nodes =
      r.nodes.filter (fun pr => decide (d < pr.merged_at_date)) ∧
    (∀ pr : PullRequest,
      pr ∈ (r.trim (some d)).nodes ↔
        pr ∈ r.nodes ∧ d < pr.merged_at_date) ∧
    r.trim none = r := by
  refine ⟨rfl, ?_, rfl⟩
  intro pr
  show pr ∈ r.nodes.filter (fun pr => decide (d < pr.merged_at_date)) ↔ _
  simp [List.mem_filter]

/-- Claim C4: the early-stop predicate continues pagination exactly when
the page-info flag is set and (when a cutoff date is given) the last
accumulated item — which by the extend equation is the last item of the
most recently fetched non-empty page — was merged strictly after the
cutoff; an accumulated response with no items, and likewise a newly fetched
page with no items, never triggers the early stop. -/
theorem has_next_page_spec (r : RepositoryResponse) (d : Option Int)
    (p : RepositoryResponse) :
    (r.has_next_page d = true ↔
      r.page_info.hasNextPage = true ∧
        ∀ dd, d = some dd → ∀ last, r.nodes.getLast? = some last →
          dd < last.merged_at_date) ∧
    (r.nodes = [] → r.has_next_page d = r.page_info.hasNextPage) ∧
    (p.nodes ≠ [] → (r.extend p).nodes.getLast? = p.nodes.getLast?) ∧
    (r.has_next_page d = true → p.nodes = [] →
      (r.extend p).has_next_page d = p.page_info.hasNextPage) := by
  refine ⟨?_, ?_, ?_, ?_⟩
  · cases d with
    | none => simp [RepositoryResponse.has_next_page]
    | some md =>
      cases hl : r.nodes.getLast? with
      | none => simp [RepositoryResponse.has_next_page, hl]
      | some last =>
        simp only [RepositoryResponse.has_next_page, hl, Bool.and_eq_true,
          decide_eq_true_iff, Option.some.injEq]
        constructor
        · rintro ⟨h1, h2⟩
          refine ⟨h2, ?_⟩
          rintro dd rfl l' rfl
          exact h1
        · rintro ⟨h1, h2⟩
          exact ⟨h2 md rfl last rfl, h1⟩
  · intro h
    have hl : r.nodes.getLast? = none := by
      rw [h]
      rfl
    cases d <;> simp [RepositoryResponse.has_next_page, hl]
  · intro hp
    have : (r.extend p).nodes = r.nodes ++ p.nodes := rfl
    rw [this, List.getLast?_append]
    cases hl : p.nodes.getLast? with
    | none =>
      rw [List.getLast?_eq_none_iff] at hl
      exact absurd hl hp
    | some last => rfl
  · intro h1 hp
    have hn : (r.extend p).nodes = r.nodes := by
      show r.nodes ++ p.nodes = r.nodes
      rw [hp, List.append_nil]
    have hpi : (r.extend p).page_info = p.page_info := rfl
    cases d with
    | none =>
      simp [RepositoryResponse.has_next_page, hpi]
    | some md =>
      simp only [RepositoryResponse.has_next_page, Bool.and_eq_true] at h1
      simp only [RepositoryResponse.has_next_page, hn, hpi]
      cases hl : r.nodes.getLast? with
      | none => simp
      | some last =>
        rw [hl] at h1
        have hd : decide (md < last.merged_at_date) = true := h1.1
        show (decide (md < last.merged_at_date) && p.page_info.hasNextPage) =
          p.page_info.hasNextPage
        rw [hd, Bool.true_and]

/-- Claim C4 witness: instantiating the predicate characterization on
concrete pages: after extending with a non-empty page the last accumulated
node is that page's last node, and after extending with an empty page the
continuation decision is exactly the new page-info flag. -/
theorem has_next_page_spec_witness :
    (pageA.extend sampleResp).nodes.getLast? = sampleResp.nodes.getLast? ∧
    (pageA.extend RepositoryResponse.empty).has_next_page none =
      RepositoryResponse.empty.page_info.hasNextPage :=
  ⟨(has_next_page_spec pageA none sampleResp).2.2.1 (by decide),
   (has_next_page_spec pageA none RepositoryResponse.empty).2.2.2
     (by decide) (by decide)⟩

/-- Claim C5: every entry of the finalized ranking carries the score
weight·approvals + weight·comments + 2·weight·requested_changes +
additions + (weight/10)·deletions (truncating division), and the ranking is
the score-populated entry list stably sorted by score descending. -/
theorem finalize_scores_and_sorted (users : GitHubUsers) (weight : Nat) :
    (∀ p ∈ finalize users weight,
      p.2.score = weight * p.2.approvals + weight * p.2.comments +
        2 * weight * p.2.requested_changes + p.2.additions +
        (weight / 10) * p.2.deletions) ∧
    List.Pairwise (fun a b => b.2.score ≤ a.2.score)
      (finalize users weight) ∧
    (finalize users weight).Perm
      (users.map (fun p => (p.1, { p.2 with score := scoreOf weight p.2 }))) := by
  refine ⟨?_, ?_, ?_⟩
  · intro p hp
    unfold finalize at hp
    rw [List.mem_mergeSort] at hp
    obtain ⟨x, hx, rfl⟩ := List.mem_map.mp hp
    obtain ⟨login, s⟩ := x
    cases s
    simp only [scoreOf]
    ring
  · unfold finalize
    refine List.Pairwise.imp ?_ (List.sorted_mergeSort ?_ ?_ _)
    · intro a b h
      exact of_decide_eq_true h
    · intro a b c hab hbc
      exact decide_eq_true
        (le_trans (of_decide_eq_true hbc) (of_decide_eq_true hab))
    · intro a b
      simp only [Bool.or_eq_true, decide_eq_true_iff]
      exact Nat.le_total b.2.score a.2.score
  · exact List.mergeSort_perm _ _

/-- Claim C8: the aggregation key space is a single flat mapping from login
to stats: the reduced map's keys are unique (one aggregate entry per
contributor), a login has an entry exactly when it is encountered in some
role, and that single entry holds the sum of the login's contributions
across all roles (author, reviewer, commenter) and all repositories. -/
theorem aggregation_single_flat_map (resps : List RepositoryResponse)
    (login : String) :
    ((mainAggregate resps).users.map Prod.fst).Nodup ∧
    (((mainAggregate resps).users.lookup login).isSome = true ↔
      touched login ((resps.map RepositoryResponse.nodes).flatten) = true) ∧
    statsOf (mainAggregate resps).users login =
      contribOf login ((resps.map RepositoryResponse.nodes).flatten) := by
  rw [mainAggregate_users]
  refine ⟨?_, ?_, ?_⟩
  · exact nodup_keys_foldl_applyPullRequest _ [] (by simp)
  · rw [lookup_isSome_iff_mem_keys, mem_keys_foldl_applyPullRequest]
    simp
  · rw [statsOf_foldl_applyPullRequest, statsOf_nil, addStats_new_left]

/-- Claim C9: the reduction conserves line counts: the sum of the additions
fields plus the sum of the deletions fields over all aggregate entries
equals the sum of additions + deletions over exactly the pull requests
retained after date-trimming, which is also the loc total main divides to
derive the weight. -/
theorem aggregate_conserves_loc (date : Option Int)
    (fetched : List RepositoryResponse) :
    runAggregate ⟨[], 0, 0⟩
        ((fetched.map (fun r => r.trim date)).map Except.ok) =
      .ok (mainAggregate (fetched.map (fun r => r.trim date))) ∧
    totalAddDel (mainAggregate (fetched.map (fun r => r.trim date))).users =
      totalLocOf (fetched.map (fun r => r.trim date)) ∧
    (mainAggregate (fetched.map (fun r => r.trim date))).loc =
      totalLocOf (fetched.map (fun r => r.trim date)) := by
  refine ⟨runAggregate_map_ok _ _, ?_, mainAggregate_loc _⟩
  rw [mainAggregate_users, totalAddDel_foldl_applyPullRequest, totalAddDel_nil]
  simp [sumLoc, totalLocOf]

/-- Claim C10: every login encountered during the reduction gets an entry
created with all counters zero before any increment: a reviewer whose only
appearances carry an unrecognized disposition keeps the all-zero stats and
still appears in the final ranked output, and a missing author
deserializes to the sentinel login Unknown. -/
theorem encountered_login_gets_zero_entry (prs : List PullRequest)
    (login : String) (w : Nat)
    (henc : touched login prs = true)
    (hauth : ∀ pr ∈ prs, pr.author.login ≠ login)
    (hcom : ∀ pr ∈ prs, ∀ c ∈ pr.comments, c.author.login ≠ login)
    (hrev : ∀ pr ∈ prs, ∀ rv ∈ pr.reviews, rv.author.login = login →
      rv.state ≠ "APPROVED" ∧ rv.state ≠ "COMMENTED" ∧
        rv.state ≠ "CHANGES_REQUESTED") :
    (prs.foldl applyPullRequest []).lookup login = some UserStats.new ∧
    (login, UserStats.new) ∈ finalize (prs.foldl applyPullRequest []) w ∧
    (default_on_null (none : Option User)).login = "Unknown" := by
  have hcontrib : contribOf login prs = UserStats.new := by
    unfold contribOf
    apply sumStats_all_new
    intro x hx
    obtain ⟨pr, hpr, rfl⟩ := List.mem_map.mp hx
    unfold prContrib
    rw [if_neg (fun h => hauth pr hpr h)]
    have hrevs :
        sumStats ((pr.reviews.filter
          (fun rv => rv.author.login == login)).map reviewDelta) =
          UserStats.new := by
      apply sumStats_all_new
      intro y hy
      obtain ⟨rv, hrv, rfl⟩ := List.mem_map.mp hy
      rw [List.mem_filter] at hrv
      obtain ⟨hrv, heq⟩ := hrv
      rw [beq_iff_eq] at heq
      obtain ⟨h1, h2, h3⟩ := hrev pr hpr rv hrv heq
      unfold reviewDelta
      rw [if_neg h1, if_neg h2, if_neg h3]
    have hcoms : (pr.comments.filter (fun c => c.author.login == login)) = [] := by
      rw [List.filter_eq_nil_iff]
      intro c hc
      rw [beq_iff_eq]
      exact hcom pr hpr c hc
    rw [hrevs, hcoms]
    rw [show sumStats (List.map (fun _ => commentDelta) []) = UserStats.new
      from rfl]
    rw [addStats_new_left, addStats_new_left]
  have hlookup : (prs.foldl applyPullRequest []).lookup login =
      some UserStats.new := by
    have hmem : login ∈ (prs.foldl applyPullRequest []).map Prod.fst := by
      rw [mem_keys_foldl_applyPullRequest]
      exact Or.inr henc
    have hsome := (lookup_isSome_iff_mem_keys _ _).mpr hmem
    obtain ⟨v, hv⟩ := Option.isSome_iff_exists.mp hsome
    have hst : statsOf (prs.foldl applyPullRequest []) login = v := by
      rw [statsOf, hv]
      rfl
    rw [statsOf_foldl_applyPullRequest, statsOf_nil, addStats_new_left,
      hcontrib] at hst
    rw [hv, ← hst]
  refine ⟨hlookup, ?_, rfl⟩
  have hmem : (login, UserStats.new) ∈ prs.foldl applyPullRequest [] :=
    mem_of_lookup_eq_some hlookup
  unfold finalize
  rw [List.mem_mergeSort]
  apply List.mem_map.mpr
  refine ⟨(login, UserStats.new), hmem, ?_⟩
  simp [scoreOf, UserStats.new]

/-- A review whose author is missing (deserialized to the Unknown
sentinel) and whose disposition DISMISSED is unrecognized. -/
def unknownReview : Review := ⟨default_on_null none, "DISMISSED"⟩

/-- A pull request by alice carrying only unknownReview. -/
def unknownPR : PullRequest := ⟨[unknownReview], [], 20, 5, 1, 1, ⟨"alice"⟩⟩

/-- Claim C10 witness: the Unknown sentinel reviewer with the unrecognized
DISMISSED disposition gets an all-zero entry and a slot in the ranking. -/
theorem encountered_login_gets_zero_entry_witness :
    ([unknownPR].foldl applyPullRequest []).lookup "Unknown" =
      some UserStats.new ∧
    ("Unknown", UserStats.new) ∈
      finalize ([unknownPR].foldl applyPullRequest []) 6 ∧
    (default_on_null (none : Option User)).login = "Unknown" :=
  encountered_login_gets_zero_entry [unknownPR] "Unknown" 6
    (by decide) (by decide) (by decide) (by decide)

/-- Claim C1 (amended): if a per-repository fetch task fails, the run
aborts: main's join loop propagates the first task error through its
?-operators, so the failed run produces no report and every other
repository's result — aggregated or still pending — is discarded. -/
theorem task_failure_aborts_run (pre : List RepositoryResponse)
    (e : FetchError) (rest : List (Except FetchError RepositoryResponse)) :
    runMain (pre.map Except.ok ++ Except.error e :: rest) =
      RunOutcome.err e := by
  unfold runMain
  rw [runAggregate_first_error]

/-- Claim C1 counterexample: a failed task followed by a successful
repository result makes main return the propagated error, so the sibling
result is not aggregated — refuting the claim that the run does not abort
and that the other repositories are still aggregated. The second conjunct
shows the sibling result would have contributed an entry for bob. -/
theorem task_failure_aborts_run_cex :
    runMain [Except.error FetchError.transport, Except.ok sampleResp] =
      RunOutcome.err FetchError.transport ∧
    (mainAggregate [sampleResp]).users.lookup "bob" =
      some ⟨1, 0, 0, 0, 0, 0, 0, 0⟩ := by
  constructor
  · rfl
  · decide

/-- Claim C2 (amended): with zero aggregated pull requests, the weight
computation loc / prs divides by zero and the run crashes with a Rust
integer-division panic — the score is neither silently defaulted nor zero,
but the failure is a panic rather than a surfaced recoverable
DivisionByZero error value. -/
theorem zero_prs_panics (fetched : List RepositoryResponse)
    (hempty : ∀ r ∈ fetched, r.nodes = []) :
    runMain (fetched.map Except.ok) = RunOutcome.panicked := by
  unfold runMain
  rw [runAggregate_map_ok]
  show finishRun (mainAggregate fetched).loc (mainAggregate fetched).prs
    (mainAggregate fetched).users = RunOutcome.panicked
  rw [mainAggregate_prs, totalPRsOf_all_nil fetched hempty]
  unfold finishRun
  simp

/-- Claim C2 witness: a cutoff date excluding every fetched pull request
yields zero aggregated pull requests and the division-by-zero panic. -/
theorem zero_prs_panics_witness :
    runMain ([sampleResp.trim (some 100)].map Except.ok) =
      RunOutcome.panicked :=
  zero_prs_panics [sampleResp.trim (some 100)] (by decide)

/-- Claim C2 counterexample: scoring a run whose cutoff date excludes
every pull request ends in the division-by-zero panic, not in a surfaced
DivisionByZero error outcome — refuting the claim's "not a crash/panic". -/
theorem zero_prs_division_panic_cex :
    runMain [Except.ok (sampleResp.trim (some 100))] =
      RunOutcome.panicked := by
  decide

/-- Claim C6 (amended): a decode failure on a per-repository page is
replaced by an empty, exhausted page: pagination ends without an error and
every already-accumulated node is retained in the returned result. (A
transport failure, by contrast, propagates and discards the
accumulation — see the counterexample.) -/
theorem decode_failure_keeps_accumulated (date : Option Int)
    (acc : RepositoryResponse)
    (rest : List (FetchOutcome RepositoryResponse)) :
    prFetchLoop date acc (FetchOutcome.badBody :: rest) =
      .ok (if acc.has_next_page date = true
        then acc.extend RepositoryResponse.empty else acc) ∧
    (if acc.has_next_page date = true
      then acc.extend RepositoryResponse.empty else acc).nodes =
      acc.nodes := by
  constructor
  · by_cases h : acc.has_next_page date = true
    · rw [if_pos h]
      unfold prFetchLoop
      rw [h]
      simp only [if_pos rfl, get_stats]
      exact prFetchLoop_extend_empty date acc rest
    · rw [if_neg h]
      unfold prFetchLoop
      simp [h]
  · by_cases h : acc.has_next_page date = true
    · rw [if_pos h]
      show acc.nodes ++ RepositoryResponse.empty.nodes = acc.nodes
      rw [show RepositoryResponse.empty.nodes = [] from rfl, List.append_nil]
    · rw [if_neg h]

/-- Claim C6 counterexample: the claim extends the graceful policy to any
page failure, network or decode; but a transport failure on the second
page propagates as a task error and discards the accumulated first page,
while the same run with a decode failure keeps it. -/
theorem transport_failure_discards_accumulated_cex :
    fetchTask none (FetchOutcome.good pageA) [FetchOutcome.transportErr] =
      .error FetchError.transport ∧
    fetchTask none (FetchOutcome.good pageA) [FetchOutcome.badBody] =
      .ok (pageA.extend RepositoryResponse.empty) := by
  constructor
  · rfl
  · rfl

/-- Claim C7 (amended): a transport or decode failure during repository
enumeration is fatal and surfaced on every page — on the first page and
equally on any subsequent page; a subsequent-page failure is not caught,
logged, or degraded to an end of the listing. -/
theorem enumeration_errors_always_fatal
    (rest : List (FetchOutcome OrganizationResponse))
    (acc : OrganizationResponse) :
    enumerate_repositories FetchOutcome.transportErr rest =
      .error FetchError.transport ∧
    enumerate_repositories FetchOutcome.badBody rest =
      .error FetchError.decode ∧
    (acc.has_next_page = true →
      repoEnumLoop acc (FetchOutcome.transportErr :: rest) =
        .error FetchError.transport ∧
      repoEnumLoop acc (FetchOutcome.badBody :: rest) =
        .error FetchError.decode) := by
  refine ⟨rfl, rfl, ?_⟩
  intro h
  constructor <;> (unfold repoEnumLoop; rw [h]; simp [get_repositories])

/-- Claim C7 witness: a first page whose page-info requests continuation,
followed by a failing second page, aborts the enumeration with the
surfaced error. -/
theorem enumeration_errors_always_fatal_witness :
    repoEnumLoop orgPage1 [FetchOutcome.transportErr] =
      .error FetchError.transport ∧
    repoEnumLoop orgPage1 [FetchOutcome.badBody] =
      .error FetchError.decode :=
  (enumeration_errors_always_fatal [] orgPage1).2.2 (by decide)

/-- Claim C7 counterexample: a transport failure on the second enumeration
page yields the propagated error, not the truncated one-repository listing
the claim's graceful-degradation policy would produce. -/
theorem subsequent_page_error_not_truncation_cex :
    enumerate_repositories (FetchOutcome.good orgPage1)
        [FetchOutcome.transportErr] = .error FetchError.transport ∧
    enumerate_repositories (FetchOutcome.good orgPage1)
        [FetchOutcome.transportErr] ≠ .ok ["repo1"] := by
  refine ⟨rfl, ?_⟩
  intro h
  rw [show enumerate_repositories (FetchOutcome.good orgPage1)
      [FetchOutcome.transportErr] = .error FetchError.transport from rfl] at h
  exact Except.noConfusion h

end GitStats
